import Mathlib

/-!
Verification of the Lexicon Engine of `src/app.js` (Word-Lookup).

The engine is a trie-based dictionary with exact lookup (`searchWord`),
autocompletion (`getAutoSuggestions` with the private `#dfs`), Levenshtein
distance (`editDistance`) and ranked spelling corrections
(`getSpellingCorrections`).

Modelling conventions:
- JavaScript strings are modelled as `List Char`; `String.prototype.toLowerCase`
  is modelled per character by `Char.toLower` (basic-latin case folding).
- A `Map` of children is an insertion-ordered association list (`ChildList`);
  `Map.get`/`Map.set`/`Map.has` are `ChildList.get`/`ChildList.set`/`isSome`.
  Iteration over a `Map` visits entries in insertion order, as in JS.
- The JS `Set` `wordsSet` is an insertion-ordered duplicate-free list.
- Mutation is modelled by state passing. The one place the source may
  dereference `undefined` (the update branch of `insertWord`, which walks the
  trie path without checking edges) is modelled with `Option`:
  `none` means the JS code would have thrown a `TypeError`.
- `Array.prototype.sort` with the comparator
  `(a, b) => a.distance - b.distance || a.word.localeCompare(b.word)`
  is modelled as a stable insertion sort by that key; `localeCompare` is
  modelled as codepoint-lexicographic comparison.
-/

set_option autoImplicit false

mutual
/-- Model of `class TrieNode`: the `children` Map, the `isEndOfWord` flag and
the `definition` string. -/
inductive TrieNode : Type where
  | mk (children : ChildList) (isEndOfWord : Bool) (definition : String)
/-- The `children` Map of a `TrieNode`: an insertion-ordered association list
from characters to child nodes. -/
inductive ChildList : Type where
  | nil
  | cons (key : Char) (node : TrieNode) (rest : ChildList)
end

def TrieNode.children : TrieNode → ChildList
  | .mk cs _ _ => cs

def TrieNode.isEndOfWord : TrieNode → Bool
  | .mk _ e _ => e

def TrieNode.definition : TrieNode → String
  | .mk _ _ d => d

/-- `new TrieNode()`: empty children, not a word end, empty definition. -/
def TrieNode.new : TrieNode := .mk .nil false ""

/-- `Map.prototype.get`: first (and, by the no-duplicate-keys invariant, only)
entry with the given key. -/
def ChildList.get : ChildList → Char → Option TrieNode
  | .nil, _ => none
  | .cons k t rest, c => if k = c then some t else rest.get c

/-- `Map.prototype.set`: replace the value at an existing key in place,
otherwise append the new entry at the end (JS Maps preserve insertion order). -/
def ChildList.set : ChildList → Char → TrieNode → ChildList
  | .nil, c, t => .cons c t .nil
  | .cons k u rest, c, t => if k = c then .cons k t rest else .cons k u (rest.set c t)

def ChildList.keys : ChildList → List Char
  | .nil => []
  | .cons k _ rest => k :: rest.keys

/-- Per-character model of `String.prototype.toLowerCase()`. -/
def toLowerCase (w : List Char) : List Char := w.map Char.toLower

/-- `startsWith p w` holds when `p` is an initial segment of `w`
(model of `String.prototype.startsWith`). -/
def startsWith : List Char → List Char → Bool
  | [], _ => true
  | _ :: _, [] => false
  | c :: cs, d :: ds => c = d && startsWith cs ds

/-- Codepoint-lexicographic `≤` on words; model of
`a.localeCompare(b) <= 0` for the lower-cased words the engine stores. -/
def lexLe : List Char → List Char → Bool
  | [], _ => true
  | _ :: _, [] => false
  | a :: as, b :: bs => if a = b then lexLe as bs else decide (a < b)

/-- Model of `class WordDictionary`: the trie root, the insertion-ordered
`wordList` array and the `wordsSet` Set (modelled as an insertion-ordered
duplicate-free list). -/
structure WordDictionary where
  root : TrieNode
  wordList : List (List Char)
  wordsSet : List (List Char)

/-- The `WordDictionary` constructor. -/
def WordDictionary.new : WordDictionary := ⟨TrieNode.new, [], []⟩

/-- `Set.prototype.add`: append if not already present. -/
def setAdd (s : List (List Char)) (w : List Char) : List (List Char) :=
  if w ∈ s then s else s ++ [w]

/-- Walking the trie from a node along a word, one character edge at a time;
`none` when a required edge is missing. -/
def walkPath : TrieNode → List Char → Option TrieNode
  | node, [] => some node
  | node, c :: rest =>
    match node.children.get c with
    | none => none
    | some child => walkPath child rest

/-- The object literal `{ found, definition }` returned by `searchWord`. -/
structure LookupResult where
  found : Bool
  definition : String
deriving DecidableEq

/-- The walk loop of `WordDictionary.searchWord`: returns
`{ found: false, definition: "" }` the instant an edge is missing, otherwise
the final node's `isEndOfWord` flag and `definition`. -/
def searchGo : TrieNode → List Char → LookupResult
  | node, [] => ⟨node.isEndOfWord, node.definition⟩
  | node, c :: rest =>
    match node.children.get c with
    | none => ⟨false, ""⟩
    | some child => searchGo child rest

/-- `WordDictionary.searchWord`: lower-case the input, then walk the trie. -/
def searchWord (dict : WordDictionary) (word : List Char) : LookupResult :=
  searchGo dict.root (toLowerCase word)

/-- The fresh-insert walk of `insertWord`: create missing nodes along the path,
then mark the final node terminal and set its definition. -/
def insertPath : TrieNode → List Char → String → TrieNode
  | node, [], defn => .mk node.children true defn
  | node, c :: rest, defn =>
    let child := (node.children.get c).getD TrieNode.new
    .mk (node.children.set c (insertPath child rest defn)) node.isEndOfWord node.definition

/-- The update branch of `insertWord`:
`let cur = this.root; for (const ch of lowerWord) cur = cur.children.get(ch);
if (cur) cur.definition = definition || cur.definition;`
The walk does not check edges: if `get` yields `undefined` with characters
still to consume, the next iteration throws (`none`); if it yields
`undefined` on the last character, the `if (cur)` guard makes the call a
no-op. -/
def setDefinitionAt : TrieNode → List Char → String → Option TrieNode
  | node, [], defn => some (.mk node.children node.isEndOfWord defn)
  | node, c :: rest, defn =>
    match node.children.get c with
    | some child =>
      match setDefinitionAt child rest defn with
      | some child2 => some (.mk (node.children.set c child2) node.isEndOfWord node.definition)
      | none => none
    | none =>
      match rest with
      | [] => some node
      | _ :: _ => none

/-- `WordDictionary.insertWord(word, definition = "")`.
`none` models a thrown `TypeError` (never happens from reachable states). -/
def insertWord (dict : WordDictionary) (word : List Char) (definition : String) :
    Option WordDictionary :=
  let lowerWord := toLowerCase word
  if lowerWord ∈ dict.wordsSet then
    if definition = "" then some dict
    else
      match setDefinitionAt dict.root lowerWord definition with
      | some root2 => some { dict with root := root2 }
      | none => none
  else
    some { dict with
      root := insertPath dict.root lowerWord definition,
      wordsSet := setAdd dict.wordsSet lowerWord,
      wordList := dict.wordList ++ [lowerWord] }

mutual
/-- `WordDictionary.#dfs(node, prefix, suggestions, maxSuggestions)`: stop once
the accumulator has reached the cap, push the current word at terminal nodes,
then recurse into the children in Map insertion order. -/
def dfs (node : TrieNode) (pre : List Char) (suggestions : List (List Char)) (cap : Nat) :
    List (List Char) :=
  if cap ≤ suggestions.length then suggestions
  else
    match node with
    | .mk cs e _ => dfsChildren cs pre (if e then suggestions ++ [pre] else suggestions) cap
def dfsChildren (cs : ChildList) (pre : List Char) (suggestions : List (List Char)) (cap : Nat) :
    List (List Char) :=
  match cs with
  | .nil => suggestions
  | .cons c t rest => dfsChildren rest pre (dfs t (pre ++ [c]) suggestions cap) cap
end

/-- `Array.from(new Set(list))`: deduplicate keeping first occurrences,
preserving order (with an explicit accumulator of already-seen elements). -/
def dedupeAux (seen : List (List Char)) : List (List Char) → List (List Char)
  | [] => []
  | x :: xs => if x ∈ seen then dedupeAux seen xs else x :: dedupeAux (x :: seen) xs

def dedupeFirst (l : List (List Char)) : List (List Char) := dedupeAux [] l

/-- `WordDictionary.getAutoSuggestions(prefix, maxSuggestions = 10)`: walk to
the prefix node (empty result if the path is missing), collect up to
`maxSuggestions * 3` words by depth-first search, deduplicate, and truncate. -/
def getAutoSuggestions (dict : WordDictionary) (pre : List Char) (maxSuggestions : Nat) :
    List (List Char) :=
  let lowerPre := toLowerCase pre
  match walkPath dict.root lowerPre with
  | none => []
  | some node =>
    let suggestions := dfs node lowerPre [] (maxSuggestions * 3)
    (dedupeFirst suggestions).take maxSuggestions

/-- The dynamic-programming table of `editDistance`, read as a recurrence:
`dp a b fuel i j` is the table entry `dp[i][j]` (edit distance of the first
`i` characters of `a` and the first `j` characters of `b`). The `fuel`
argument only bounds the recursion depth; the table fill always terminates,
and every call made with `i + j ≤ fuel` stays clear of the fuel-exhausted
branch. -/
def dp (a b : List Char) : Nat → Nat → Nat → Nat
  | fuel, i, j =>
    match i, j with
    | 0, j2 => j2
    | i2 + 1, 0 => i2 + 1
    | i2 + 1, j2 + 1 =>
      match fuel with
      | 0 => 0
      | fuel2 + 1 =>
        if a[i2]? = b[j2]? then dp a b fuel2 i2 j2
        else 1 + min (dp a b fuel2 i2 (j2 + 1)) (min (dp a b fuel2 (i2 + 1) j2) (dp a b fuel2 i2 j2))

/-- `WordDictionary.editDistance(a, b)`: classic Levenshtein distance,
`dp[m][n]` of the full table. -/
def editDistance (a b : List Char) : Nat :=
  dp a b (a.length + b.length) a.length b.length

/-- The comparator `(a, b) => a.distance - b.distance || a.word.localeCompare(b.word)`
as a total preorder: `candLE x y` iff `x` sorts no later than `y`. Candidates
are `(word, distance)` pairs. -/
def candLE (x y : List Char × Nat) : Bool :=
  decide (x.2 < y.2) || (decide (x.2 = y.2) && lexLe x.1 y.1)

/-- Stable insertion into a sorted candidate list: a new element goes before
the first strictly later element, after everything that sorts no later. -/
def insertSorted (x : List Char × Nat) : List (List Char × Nat) → List (List Char × Nat)
  | [] => [x]
  | y :: ys => if candLE x y then x :: y :: ys else y :: insertSorted x ys

/-- `candidates.sort(...)`: stable sort by the comparator `candLE`. -/
def sortCands : List (List Char × Nat) → List (List Char × Nat)
  | [] => []
  | x :: xs => insertSorted x (sortCands xs)

/-- The dedup-and-truncate loop of `getSpellingCorrections`: keep the first
occurrence of each word, and `break` as soon as `maxSuggestions` have been
kept. -/
def dedupLoop (maxSuggestions : Nat) (seen : List (List Char))
    (acc : List (List Char × Nat)) : List (List Char × Nat) → List (List Char × Nat)
  | [] => acc
  | c :: cs =>
    if c.1 ∈ seen then dedupLoop maxSuggestions seen acc cs
    else if maxSuggestions ≤ acc.length + 1 then acc ++ [c]
    else dedupLoop maxSuggestions (c.1 :: seen) (acc ++ [c]) cs

/-- `WordDictionary.getSpellingCorrections(word, maxDistance = 2, maxSuggestions = 5)`:
linear scan over `wordList` keeping candidates with `0 < distance ≤ maxDistance`,
stable sort by distance then word, dedup keeping the best-ranked occurrence of
each word, truncate to `maxSuggestions`, return the words. -/
def getSpellingCorrections (dict : WordDictionary) (word : List Char)
    (maxDistance : Nat) (maxSuggestions : Nat) : List (List Char) :=
  let lowerWord := toLowerCase word
  let candidates := dict.wordList.filterMap (fun dictWord =>
    let distance := editDistance lowerWord dictWord
    if 0 < distance ∧ distance ≤ maxDistance then some (dictWord, distance) else none)
  let sorted := sortCands candidates
  let unique := dedupLoop maxSuggestions [] [] sorted
  unique.map (fun c => c.1)

/-- Running a sequence of `insertWord` calls from a given state; `none` as soon
as one call would throw. -/
def foldInserts (dict : WordDictionary) : List (List Char × String) → Option WordDictionary
  | [] => some dict
  | p :: ops =>
    match insertWord dict p.1 p.2 with
    | some dict2 => foldInserts dict2 ops
    | none => none

/-- Running a sequence of `insertWord` calls on a fresh `WordDictionary`. -/
def runInserts (ops : List (List Char × String)) : Option WordDictionary :=
  foldInserts WordDictionary.new ops

/-- Spec-side update semantics for one matching insertion: the first insertion
sets the definition (possibly empty); a later insertion with a non-empty
definition overwrites; a later insertion with an empty definition is a no-op. -/
def updDef (old : Option String) (defn : String) : Option String :=
  match old with
  | none => some defn
  | some o => some (if defn = "" then o else defn)

/-- Spec-side definition tracking across an insertion sequence, from a given
initial definition state for the queried (already normalized) word. -/
def specDefFold (init : Option String) (ops : List (List Char × String)) (q : List Char) :
    Option String :=
  ops.foldl (fun acc p => if toLowerCase p.1 = q then updDef acc p.2 else acc) init

/-- Spec-side expected lookup definition for a normalized word after a
sequence of insertions: `none` when never inserted, otherwise the definition
determined by the update semantics of the claims. -/
def specDef (ops : List (List Char × String)) (q : List Char) : Option String :=
  specDefFold none ops q

/-- Spec-side word sequence continued from a given state: each normalized word
exactly once, in first-insertion order. -/
def firstInsertionOrderFrom (init : List (List Char)) (ops : List (List Char × String)) :
    List (List Char) :=
  ops.foldl (fun acc p => if toLowerCase p.1 ∈ acc then acc else acc ++ [toLowerCase p.1]) init

/-- Spec-side word sequence: each normalized inserted word exactly once, in
first-insertion order. -/
def firstInsertionOrder (ops : List (List Char × String)) : List (List Char) :=
  firstInsertionOrderFrom [] ops

mutual
/-- The full (uncapped) depth-first enumeration of the words under a node:
the word at the node itself if terminal, then the words under each child, in
child insertion order. This is the limit of `dfs` as the cap grows. -/
def allWords (node : TrieNode) (pre : List Char) : List (List Char) :=
  match node with
  | .mk cs e _ => (if e then [pre] else []) ++ allWordsChildren cs pre
def allWordsChildren (cs : ChildList) (pre : List Char) : List (List Char) :=
  match cs with
  | .nil => []
  | .cons c t rest => allWords t (pre ++ [c]) ++ allWordsChildren rest pre
end

/-- The definition at a (pre-normalized) word, when the walk reaches a
terminal node; `none` otherwise. `searchWord` returns `found: true` exactly
when this is `some`. -/
def lookupNorm (node : TrieNode) (q : List Char) : Option String :=
  match walkPath node q with
  | some m => if m.isEndOfWord then some m.definition else none
  | none => none

/-- A terminal node is reachable from `node` by consuming `t`. -/
def terminalAt (node : TrieNode) (t : List Char) : Prop :=
  ∃ m, walkPath node t = some m ∧ m.isEndOfWord = true

mutual
/-- Well-formedness of a trie node: the keys of every children Map are
duplicate-free. This holds for every node the engine ever builds, because
`insertWord` only appends a key after `Map.has` returned `false`. -/
inductive NodeWF : TrieNode → Prop where
  | mk : ∀ {cs : ChildList} {e : Bool} {d : String},
      ChildrenWF cs → cs.keys.Nodup → NodeWF (.mk cs e d)
/-- Well-formedness of a children Map: every entry holds a well-formed node. -/
inductive ChildrenWF : ChildList → Prop where
  | nil : ChildrenWF .nil
  | cons : ∀ {c : Char} {t : TrieNode} {cs : ChildList},
      NodeWF t → ChildrenWF cs → ChildrenWF (.cons c t cs)
end

/-- The invariant of every `WordDictionary` state reachable by `insertWord`
calls: the trie is well-formed, `wordsSet` and `wordList` hold the same words
(in fact are equal as insertion-ordered lists), the word sequence is
duplicate-free and fully normalized, and a word is in the sequence exactly
when the trie has a terminal node at its path. -/
structure StateInv (dict : WordDictionary) : Prop where
  wf : NodeWF dict.root
  setEq : dict.wordsSet = dict.wordList
  nodup : dict.wordList.Nodup
  terminalIff : ∀ q, (lookupNorm dict.root q).isSome ↔ q ∈ dict.wordList
  normalized : ∀ q ∈ dict.wordList, toLowerCase q = q

/-! ### Basic lemmas: accessors, children Maps, case folding, orders -/

@[simp] theorem TrieNode.children_mk (cs : ChildList) (e : Bool) (d : String) :
    (TrieNode.mk cs e d).children = cs := rfl

@[simp] theorem TrieNode.isEndOfWord_mk (cs : ChildList) (e : Bool) (d : String) :
    (TrieNode.mk cs e d).isEndOfWord = e := rfl

@[simp] theorem TrieNode.definition_mk (cs : ChildList) (e : Bool) (d : String) :
    (TrieNode.mk cs e d).definition = d := rfl

/-- Structural induction for `ChildList` alone (node contents opaque). -/
theorem ChildList.ind (Q : ChildList → Prop) (hnil : Q .nil)
    (hcons : ∀ (c : Char) (t : TrieNode) (cs : ChildList), Q cs → Q (.cons c t cs)) :
    ∀ cs, Q cs :=
  fun cs => @ChildList.rec (fun _ => True) Q (fun _ _ _ _ => trivial) hnil
    (fun c t cs _ ih => hcons c t cs ih) cs

/-- Simultaneous structural induction for `TrieNode` and `ChildList`. -/
theorem TrieNode.ind2 (P : TrieNode → Prop) (Q : ChildList → Prop)
    (hmk : ∀ (cs : ChildList) (e : Bool) (d : String), Q cs → P (.mk cs e d))
    (hnil : Q .nil)
    (hcons : ∀ (c : Char) (t : TrieNode) (cs : ChildList), P t → Q cs → Q (.cons c t cs)) :
    (∀ t, P t) ∧ (∀ cs, Q cs) :=
  ⟨fun t => @TrieNode.rec P Q hmk hnil hcons t,
   fun cs => @ChildList.rec P Q hmk hnil hcons cs⟩

theorem ChildList.get_set_self (cs : ChildList) (c : Char) (t : TrieNode) :
    (cs.set c t).get c = some t := by
  induction cs using ChildList.ind with
  | hnil => simp [ChildList.set, ChildList.get]
  | hcons k u rest ih =>
    by_cases h : k = c
    · subst h; simp [ChildList.set, ChildList.get]
    · simp [ChildList.set, ChildList.get, h, ih]

theorem ChildList.get_set_ne (cs : ChildList) (c k : Char) (t : TrieNode) (h : k ≠ c) :
    (cs.set c t).get k = cs.get k := by
  induction cs using ChildList.ind with
  | hnil =>
    simp only [ChildList.set, ChildList.get]
    rw [if_neg (fun h3 => h h3.symm)]
  | hcons k2 u rest ih =>
    by_cases h2 : k2 = c
    · subst h2
      have h3 : ¬k2 = k := fun h3 => h h3.symm
      simp [ChildList.set, ChildList.get, h3]
    · simp only [ChildList.set, if_neg h2, ChildList.get]
      by_cases h3 : k2 = k <;> simp [h3, ih]

theorem ChildList.mem_keys_of_get_some {cs : ChildList} {c : Char} {t : TrieNode}
    (h : cs.get c = some t) : c ∈ cs.keys := by
  induction cs using ChildList.ind with
  | hnil => simp [ChildList.get] at h
  | hcons k u rest ih =>
    by_cases h2 : k = c
    · subst h2; simp [ChildList.keys]
    · simp only [ChildList.get, if_neg h2] at h
      simp [ChildList.keys, ih h]

theorem ChildList.keys_set (cs : ChildList) (c : Char) (t : TrieNode) :
    (cs.set c t).keys = if c ∈ cs.keys then cs.keys else cs.keys ++ [c] := by
  induction cs using ChildList.ind with
  | hnil => simp [ChildList.set, ChildList.keys]
  | hcons k u rest ih =>
    by_cases h : k = c
    · subst h; simp [ChildList.set, ChildList.keys]
    · have h2 : ¬c = k := fun h3 => h h3.symm
      simp only [ChildList.set, if_neg h, ChildList.keys, ih, List.mem_cons]
      by_cases h3 : c ∈ rest.keys <;> simp [h2, h3]

theorem NodeWF.childrenWF {cs : ChildList} {e : Bool} {d : String}
    (h : NodeWF (.mk cs e d)) : ChildrenWF cs := by
  cases h; assumption

theorem NodeWF.keysNodup {cs : ChildList} {e : Bool} {d : String}
    (h : NodeWF (.mk cs e d)) : cs.keys.Nodup := by
  cases h; assumption

theorem ChildrenWF.get {cs : ChildList} {c : Char} {t : TrieNode}
    (h : ChildrenWF cs) (hg : cs.get c = some t) : NodeWF t := by
  induction cs using ChildList.ind with
  | hnil => simp [ChildList.get] at hg
  | hcons k u rest ih =>
    cases h with
    | cons hu hrest =>
      by_cases h2 : k = c
      · subst h2
        simp [ChildList.get] at hg
        subst hg
        exact hu
      · simp only [ChildList.get, if_neg h2] at hg
        exact ih hrest hg

theorem ChildrenWF.set {cs : ChildList} {c : Char} {t : TrieNode}
    (h : ChildrenWF cs) (ht : NodeWF t) : ChildrenWF (cs.set c t) := by
  induction cs using ChildList.ind with
  | hnil => exact .cons ht .nil
  | hcons k u rest ih =>
    cases h with
    | cons hu hrest =>
      by_cases h2 : k = c
      · subst h2; simpa [ChildList.set] using ChildrenWF.cons ht hrest
      · simpa [ChildList.set, h2] using ChildrenWF.cons hu (ih hrest)

theorem nodeWF_new : NodeWF TrieNode.new :=
  .mk .nil (by simp [ChildList.keys])

theorem charToLower_idem (c : Char) : c.toLower.toLower = c.toLower := by
  have hOfNat : ∀ n : Nat, n.isValidChar → (Char.ofNat n).toNat = n := by
    intro n h
    rw [Char.ofNat, dif_pos h]
    rfl
  by_cases h : c.toNat ≥ 65 ∧ c.toNat ≤ 90
  · have h1 : c.toLower = Char.ofNat (c.toNat + 32) := by
      rw [Char.toLower, if_pos h]
    have hv : (c.toNat + 32).isValidChar := Or.inl (by omega)
    have h2 : c.toLower.toNat = c.toNat + 32 := by rw [h1, hOfNat _ hv]
    rw [Char.toLower, h2, if_neg (by omega), h1]
  · have h1 : c.toLower = c := by rw [Char.toLower, if_neg h]
    rw [h1, h1]

theorem toLowerCase_idem (w : List Char) : toLowerCase (toLowerCase w) = toLowerCase w := by
  simp [toLowerCase, Function.comp_def, charToLower_idem]

theorem startsWith_iff (p w : List Char) : startsWith p w = true ↔ ∃ t, w = p ++ t := by
  induction p generalizing w with
  | nil => simp [startsWith]
  | cons c cs ih =>
    cases w with
    | nil => simp [startsWith]
    | cons d ds =>
      simp only [startsWith, Bool.and_eq_true, decide_eq_true_eq, ih, List.cons_append,
        List.cons.injEq]
      constructor
      · rintro ⟨rfl, t, rfl⟩; exact ⟨t, rfl, rfl⟩
      · rintro ⟨t, rfl, rfl⟩; exact ⟨rfl, t, rfl⟩

theorem lexLe_total (a b : List Char) : lexLe a b = true ∨ lexLe b a = true := by
  induction a generalizing b with
  | nil => left; simp [lexLe]
  | cons x xs ih =>
    cases b with
    | nil => right; simp [lexLe]
    | cons y ys =>
      by_cases h : x = y
      · subst h
        simpa [lexLe] using ih ys
      · have h2 : ¬y = x := fun h3 => h h3.symm
        rcases lt_trichotomy x y with h3 | h3 | h3
        · left; simp [lexLe, h, h3]
        · exact absurd h3 h
        · right; simp [lexLe, h2, h3]

theorem lexLe_trans {a b c : List Char} (h1 : lexLe a b = true) (h2 : lexLe b c = true) :
    lexLe a c = true := by
  induction a generalizing b c with
  | nil => simp [lexLe]
  | cons x xs ih =>
    cases b with
    | nil => simp [lexLe] at h1
    | cons y ys =>
      cases c with
      | nil => simp [lexLe] at h2
      | cons z zs =>
        by_cases hxy : x = y
        · subst hxy
          by_cases hyz : x = z
          · subst hyz
            simp only [lexLe, if_pos rfl] at h1 h2 ⊢
            exact ih h1 h2
          · simp only [lexLe, if_neg hyz] at h2 ⊢
            exact h2
        · by_cases hyz : y = z
          · subst hyz
            simp only [lexLe, if_neg hxy] at h1 ⊢
            exact h1
          · have hlt1 : x < y := by
              have := h1
              simp only [lexLe, if_neg hxy, decide_eq_true_eq] at this
              exact this
            have hlt2 : y < z := by
              have := h2
              simp only [lexLe, if_neg hyz, decide_eq_true_eq] at this
              exact this
            have hxz : x < z := lt_trans hlt1 hlt2
            simp [lexLe, ne_of_lt hxz, hxz]

/-! ### Trie walk and insertion lemmas -/

theorem TrieNode.eta (t : TrieNode) :
    TrieNode.mk t.children t.isEndOfWord t.definition = t := by
  cases t; rfl

theorem lookupNorm_nil (node : TrieNode) :
    lookupNorm node [] = if node.isEndOfWord then some node.definition else none := rfl

theorem lookupNorm_cons (node : TrieNode) (c : Char) (qs : List Char) :
    lookupNorm node (c :: qs) =
      (node.children.get c).bind (fun child => lookupNorm child qs) := by
  cases h : node.children.get c <;> simp [lookupNorm, walkPath, h]

theorem lookupNorm_new (q : List Char) : lookupNorm TrieNode.new q = none := by
  cases q with
  | nil => rfl
  | cons c qs => simp [lookupNorm_cons, TrieNode.new, ChildList.get]

theorem searchGo_of_lookupNorm {node : TrieNode} {q : List Char} {s : String}
    (h : lookupNorm node q = some s) : searchGo node q = ⟨true, s⟩ := by
  induction q generalizing node with
  | nil =>
    rw [lookupNorm_nil] at h
    by_cases he : node.isEndOfWord = true
    · rw [if_pos he] at h
      simp only [searchGo, he]
      rw [Option.some.inj h]
    · rw [if_neg he] at h; cases h
  | cons c qs ih =>
    rw [lookupNorm_cons] at h
    cases hg : node.children.get c with
    | none => rw [hg] at h; cases h
    | some child =>
      rw [hg] at h
      simp only [searchGo, hg]
      exact ih h

theorem walkPath_append (node : TrieNode) (p q : List Char) :
    walkPath node (p ++ q) = (walkPath node p).bind (fun m => walkPath m q) := by
  induction p generalizing node with
  | nil => simp [walkPath]
  | cons c ps ih =>
    cases hg : node.children.get c <;> simp [walkPath, hg, ih]

theorem nodeWF_walkPath {node m : TrieNode} {p : List Char}
    (hwf : NodeWF node) (h : walkPath node p = some m) : NodeWF m := by
  induction p generalizing node with
  | nil => cases h; exact hwf
  | cons c ps ih =>
    cases hg : node.children.get c with
    | none => simp [walkPath, hg] at h
    | some child =>
      simp only [walkPath, hg] at h
      have hcwf : ChildrenWF node.children := by
        cases node with
        | mk cs e d => exact hwf.childrenWF
      exact ih (hcwf.get hg) h

theorem ChildList.get_isSome_of_mem_keys {cs : ChildList} {c : Char}
    (h : c ∈ cs.keys) : (cs.get c).isSome := by
  induction cs using ChildList.ind with
  | hnil => simp [ChildList.keys] at h
  | hcons k u rest ih =>
    by_cases h2 : k = c
    · subst h2; simp [ChildList.get]
    · simp only [ChildList.keys, List.mem_cons] at h
      rcases h with h | h
      · exact absurd h.symm h2
      · simpa [ChildList.get, h2] using ih h

theorem ChildList.not_mem_keys_of_get_none {cs : ChildList} {c : Char}
    (h : cs.get c = none) : c ∉ cs.keys := by
  intro hmem
  have h2 := ChildList.get_isSome_of_mem_keys hmem
  rw [h] at h2
  cases h2

theorem nodeWF_insertPath {node : TrieNode} (w : List Char) (d : String)
    (hwf : NodeWF node) : NodeWF (insertPath node w d) := by
  induction w generalizing node with
  | nil =>
    cases node with
    | mk cs e dd => exact .mk hwf.childrenWF hwf.keysNodup
  | cons c rest ih =>
    cases node with
    | mk cs e dd =>
      simp only [insertPath, TrieNode.children_mk]
      cases hg : cs.get c with
      | none =>
        have hnotin := ChildList.not_mem_keys_of_get_none hg
        refine .mk (hwf.childrenWF.set (by simpa [hg] using ih nodeWF_new)) ?_
        rw [ChildList.keys_set, if_neg hnotin]
        simp only [List.nodup_append, List.nodup_cons, List.not_mem_nil, not_false_iff,
          List.nodup_nil, and_true, true_and]
        refine ⟨hwf.keysNodup, ?_⟩
        intro x hx hx2
        simp only [List.mem_singleton] at hx2
        subst hx2
        exact hnotin hx
      | some child =>
        have hchild : NodeWF child := hwf.childrenWF.get hg
        refine .mk (hwf.childrenWF.set (by simpa [hg] using ih hchild)) ?_
        rw [ChildList.keys_set, if_pos (ChildList.mem_keys_of_get_some hg)]
        exact hwf.keysNodup

theorem lookupNorm_insertPath_self (node : TrieNode) (w : List Char) (d : String) :
    lookupNorm (insertPath node w d) w = some d := by
  induction w generalizing node with
  | nil => simp [insertPath, lookupNorm_nil]
  | cons c rest ih =>
    rw [lookupNorm_cons]
    simp only [insertPath, TrieNode.children_mk]
    rw [ChildList.get_set_self]
    exact ih _

theorem lookupNorm_insertPath_ne (w : List Char) : ∀ (node : TrieNode) (q : List Char)
    (d : String), q ≠ w → lookupNorm (insertPath node w d) q = lookupNorm node q := by
  induction w with
  | nil =>
    intro node q d hq
    cases q with
    | nil => exact absurd rfl hq
    | cons c qs =>
      rw [lookupNorm_cons, lookupNorm_cons]
      simp [insertPath]
  | cons c rest ih =>
    intro node q d hq
    cases q with
    | nil =>
      rw [lookupNorm_nil, lookupNorm_nil]
      simp [insertPath]
    | cons c2 qs =>
      rw [lookupNorm_cons, lookupNorm_cons]
      simp only [insertPath, TrieNode.children_mk]
      by_cases hc : c2 = c
      · subst hc
        rw [ChildList.get_set_self]
        have hqs : qs ≠ rest := fun h => hq (by rw [h])
        cases hg : node.children.get c2 with
        | none =>
          simp only [hg, Option.getD_none, Option.some_bind, Option.none_bind]
          rw [ih TrieNode.new qs d hqs, lookupNorm_new]
        | some child =>
          simp only [hg, Option.getD_some, Option.some_bind]
          exact ih child qs d hqs
      · rw [ChildList.get_set_ne _ _ _ _ hc]

/-! ### The reachable-state invariant and the `insertWord` step lemma -/

theorem nodup_append_singleton {α : Type} {l : List α} {a : α}
    (h : l.Nodup) (ha : a ∉ l) : (l ++ [a]).Nodup := by
  simp only [List.nodup_append, List.nodup_cons, List.not_mem_nil, not_false_iff,
    List.nodup_nil, and_true, true_and]
  refine ⟨h, ?_⟩
  intro x hx hx2
  simp only [List.mem_singleton] at hx2
  subst hx2
  exact ha hx

theorem lookupNorm_walk {node : TrieNode} {q : List Char} {m : TrieNode}
    (h : walkPath node q = some m) :
    lookupNorm node q = if m.isEndOfWord = true then some m.definition else none := by
  unfold lookupNorm
  rw [h]

theorem lookupNorm_walk_none {node : TrieNode} {q : List Char}
    (h : walkPath node q = none) : lookupNorm node q = none := by
  unfold lookupNorm
  rw [h]

theorem lookupNorm_eq_some_iff {node : TrieNode} {q : List Char} {s : String} :
    lookupNorm node q = some s ↔
      ∃ m, walkPath node q = some m ∧ m.isEndOfWord = true ∧ m.definition = s := by
  constructor
  · intro h2
    cases h : walkPath node q with
    | none => rw [lookupNorm_walk_none h] at h2; cases h2
    | some m =>
      rw [lookupNorm_walk h] at h2
      by_cases he : m.isEndOfWord = true
      · rw [if_pos he] at h2
        exact ⟨m, rfl, he, Option.some.inj h2⟩
      · rw [if_neg he] at h2; cases h2
  · rintro ⟨m, hm, he, hd⟩
    rw [lookupNorm_walk hm, if_pos he, hd]

theorem setDefinitionAt_spec (w : List Char) : ∀ (node m : TrieNode) (d : String),
    walkPath node w = some m →
    ∃ node2, setDefinitionAt node w d = some node2 ∧
      walkPath node2 w = some (.mk m.children m.isEndOfWord d) ∧
      (∀ q, q ≠ w → lookupNorm node2 q = lookupNorm node q) ∧
      (NodeWF node → NodeWF node2) := by
  induction w with
  | nil =>
    intro node m d hw
    simp only [walkPath, Option.some.injEq] at hw
    subst hw
    cases node with
    | mk cs e dd =>
      refine ⟨.mk cs e d, rfl, rfl, ?_, ?_⟩
      · intro q hq
        cases q with
        | nil => exact absurd rfl hq
        | cons c2 qs => simp [lookupNorm_cons]
      · intro hnwf
        exact .mk hnwf.childrenWF hnwf.keysNodup
  | cons c rest ih =>
    intro node m d hw
    cases node with
    | mk cs e dd =>
      rw [walkPath] at hw
      simp only [TrieNode.children_mk] at hw
      cases hg : cs.get c with
      | none => rw [hg] at hw; cases hw
      | some child =>
        rw [hg] at hw
        obtain ⟨child2, hset, hwalk, hframe, hcwf⟩ := ih child m d hw
        refine ⟨.mk (cs.set c child2) e dd, ?_, ?_, ?_, ?_⟩
        · simp [setDefinitionAt, hg, hset]
        · rw [walkPath]
          simp [ChildList.get_set_self, hwalk]
        · intro q hq
          cases q with
          | nil => simp [lookupNorm_nil]
          | cons c2 qs =>
            rw [lookupNorm_cons, lookupNorm_cons]
            simp only [TrieNode.children_mk]
            by_cases hc : c2 = c
            · subst hc
              rw [ChildList.get_set_self, hg]
              simp only [Option.some_bind]
              exact hframe qs (fun h2 => hq (by rw [h2]))
            · rw [ChildList.get_set_ne _ _ _ _ hc]
        · intro hnwf
          refine .mk (hnwf.childrenWF.set (hcwf (hnwf.childrenWF.get hg))) ?_
          rw [ChildList.keys_set, if_pos (ChildList.mem_keys_of_get_some hg)]
          exact hnwf.keysNodup

theorem stateInv_new : StateInv WordDictionary.new := by
  refine ⟨nodeWF_new, rfl, List.nodup_nil, ?_, ?_⟩
  · intro q
    simp [WordDictionary.new, lookupNorm_new]
  · intro q hq
    simp [WordDictionary.new] at hq

theorem insertWord_step (dict : WordDictionary) (w : List Char) (defn : String)
    (h : StateInv dict) :
    ∃ dict2, insertWord dict w defn = some dict2 ∧ StateInv dict2 ∧
      dict2.wordList = (if toLowerCase w ∈ dict.wordList then dict.wordList
        else dict.wordList ++ [toLowerCase w]) ∧
      (∀ q, lookupNorm dict2.root q =
        if toLowerCase w = q then updDef (lookupNorm dict.root q) defn
        else lookupNorm dict.root q) := by
  by_cases hmem : toLowerCase w ∈ dict.wordsSet
  · have hmemL : toLowerCase w ∈ dict.wordList := h.setEq ▸ hmem
    obtain ⟨o, ho⟩ := Option.isSome_iff_exists.mp ((h.terminalIff _).mpr hmemL)
    by_cases hdefn : defn = ""
    · subst hdefn
      refine ⟨dict, ?_, h, (if_pos hmemL).symm, ?_⟩
      · simp [insertWord, hmem]
      · intro q
        by_cases hq : toLowerCase w = q
        · subst hq
          rw [if_pos rfl, ho]
          simp [updDef]
        · rw [if_neg hq]
    · obtain ⟨m, hwalk, hend, hdef⟩ := lookupNorm_eq_some_iff.mp ho
      obtain ⟨node2, hset, hwalk2, hframe, hwf2⟩ := setDefinitionAt_spec _ _ m defn hwalk
      refine ⟨{ dict with root := node2 }, ?_, ?_, (if_pos hmemL).symm, ?_⟩
      · simp [insertWord, hmem, hdefn, hset]
      · have hterm2 : lookupNorm node2 (toLowerCase w) = some defn := by
          rw [lookupNorm_eq_some_iff]
          exact ⟨_, hwalk2, by simpa using hend, by simp⟩
        refine ⟨hwf2 h.wf, h.setEq, h.nodup, ?_, h.normalized⟩
        intro q
        by_cases hq : q = toLowerCase w
        · subst hq
          rw [hterm2]
          simpa using hmemL
        · rw [hframe q hq]
          exact h.terminalIff q
      · intro q
        by_cases hq : toLowerCase w = q
        · subst hq
          rw [if_pos rfl, ho]
          have hterm2 : lookupNorm node2 (toLowerCase w) = some defn := by
            rw [lookupNorm_eq_some_iff]
            exact ⟨_, hwalk2, by simpa using hend, by simp⟩
          rw [hterm2]
          simp [updDef, hdefn]
        · rw [if_neg hq]
          exact hframe q (fun h2 => hq h2.symm)
  · have hmemL : toLowerCase w ∉ dict.wordList := h.setEq ▸ hmem
    have hnone : lookupNorm dict.root (toLowerCase w) = none := by
      rcases hcase : lookupNorm dict.root (toLowerCase w) with _ | o
      · rfl
      · exact absurd ((h.terminalIff _).mp (by rw [hcase]; rfl)) hmemL
    refine ⟨{ dict with
        root := insertPath dict.root (toLowerCase w) defn,
        wordsSet := setAdd dict.wordsSet (toLowerCase w),
        wordList := dict.wordList ++ [toLowerCase w] }, ?_, ?_, (if_neg hmemL).symm, ?_⟩
    · simp [insertWord, hmem]
    · refine ⟨nodeWF_insertPath _ _ h.wf, ?_, nodup_append_singleton h.nodup hmemL, ?_, ?_⟩
      · show setAdd dict.wordsSet (toLowerCase w) = dict.wordList ++ [toLowerCase w]
        rw [setAdd, if_neg hmem, h.setEq]
      · intro q
        by_cases hq : q = toLowerCase w
        · subst hq
          rw [lookupNorm_insertPath_self]
          simp
        · rw [lookupNorm_insertPath_ne _ _ _ _ hq]
          rw [h.terminalIff q]
          simp [hq]
      · intro q hq
        rcases List.mem_append.mp hq with hq2 | hq2
        · exact h.normalized q hq2
        · simp only [List.mem_singleton] at hq2
          subst hq2
          exact toLowerCase_idem w
    · intro q
      by_cases hq : toLowerCase w = q
      · subst hq
        rw [if_pos rfl, hnone, lookupNorm_insertPath_self]
        simp [updDef]
      · rw [if_neg hq]
        exact lookupNorm_insertPath_ne _ _ _ _ (fun h2 => hq h2.symm)

theorem foldInserts_spec (ops : List (List Char × String)) :
    ∀ (dict : WordDictionary), StateInv dict →
    ∃ dict2, foldInserts dict ops = some dict2 ∧ StateInv dict2 ∧
      dict2.wordList = firstInsertionOrderFrom dict.wordList ops ∧
      (∀ q, lookupNorm dict2.root q = specDefFold (lookupNorm dict.root q) ops q) := by
  induction ops with
  | nil =>
    intro dict h
    exact ⟨dict, rfl, h, rfl, fun q => rfl⟩
  | cons p ops ih =>
    intro dict h
    obtain ⟨d1, hins, hinv1, hlist1, hlook1⟩ := insertWord_step dict p.1 p.2 h
    obtain ⟨d2, hfold, hinv2, hlist2, hlook2⟩ := ih d1 hinv1
    refine ⟨d2, ?_, hinv2, ?_, ?_⟩
    · simp [foldInserts, hins, hfold]
    · rw [hlist2, hlist1]
      simp only [firstInsertionOrderFrom, List.foldl_cons]
    · intro q
      rw [hlook2 q, hlook1 q]
      simp only [specDefFold, List.foldl_cons]

theorem runInserts_spec (ops : List (List Char × String)) :
    ∃ dict, runInserts ops = some dict ∧ StateInv dict ∧
      dict.wordList = firstInsertionOrder ops ∧
      (∀ q, lookupNorm dict.root q = specDef ops q) := by
  obtain ⟨dict, hrun, hinv, hlist, hlook⟩ := foldInserts_spec ops WordDictionary.new stateInv_new
  refine ⟨dict, hrun, hinv, hlist, ?_⟩
  intro q
  rw [hlook q]
  have hempty : lookupNorm WordDictionary.new.root q = none := lookupNorm_new q
  rw [hempty]
  rfl

/-! ### Update-semantics bookkeeping lemmas -/

theorem updDef_isSome (old : Option String) (defn : String) :
    (updDef old defn).isSome = true := by
  cases old <;> simp [updDef]

theorem specDefFold_isSome {init : Option String} (ops : List (List Char × String))
    (q : List Char) (h : init.isSome = true) : (specDefFold init ops q).isSome = true := by
  induction ops generalizing init with
  | nil => exact h
  | cons p ops ih =>
    simp only [specDefFold, List.foldl_cons]
    by_cases hp : toLowerCase p.1 = q
    · rw [if_pos hp]
      exact ih (updDef_isSome _ _)
    · rw [if_neg hp]
      exact ih h

theorem specDefFold_append (init : Option String) (l1 l2 : List (List Char × String))
    (q : List Char) :
    specDefFold init (l1 ++ l2) q = specDefFold (specDefFold init l1 q) l2 q := by
  simp [specDefFold, List.foldl_append]

theorem lookupNorm_isSome_iff {node : TrieNode} {q : List Char} :
    (lookupNorm node q).isSome = true ↔
      ∃ m, walkPath node q = some m ∧ m.isEndOfWord = true := by
  constructor
  · intro h
    obtain ⟨s, hs⟩ := Option.isSome_iff_exists.mp h
    obtain ⟨m, hm, he, _⟩ := lookupNorm_eq_some_iff.mp hs
    exact ⟨m, hm, he⟩
  · rintro ⟨m, hm, he⟩
    rw [lookupNorm_walk hm, if_pos he]
    rfl

/-! ### Claims C1, C6, C7, C10 -/

/-- C1: for every sequence of `insertWord` calls and every inserted word,
`searchWord` of that word returns `found: true` together with the definition
determined by the update semantics (first insertion sets it, a later non-empty
insertion overwrites it, a later empty insertion is a no-op, captured by
`specDef`), and the word sequence never gains a duplicate entry. -/
theorem claim1_insert_lookup (ops : List (List Char × String)) (w : List Char) (defn : String)
    (dict : WordDictionary) (hrun : runInserts ops = some dict)
    (hspec : specDef ops (toLowerCase w) = some defn) :
    searchWord dict w = ⟨true, defn⟩ ∧ dict.wordList.Nodup := by
  obtain ⟨dict2, hrun2, hinv, _, hlook⟩ := runInserts_spec ops
  rw [hrun] at hrun2
  cases hrun2
  constructor
  · have h1 : lookupNorm dict.root (toLowerCase w) = some defn := by
      rw [hlook (toLowerCase w), hspec]
    exact searchGo_of_lookupNorm h1
  · exact hinv.nodup

theorem claim1_insert_lookup_witness :
    ∃ dict, runInserts [("Cat".toList, "feline"), ("cat".toList, ""),
        ("CAT".toList, "a feline")] = some dict ∧
      (searchWord dict "cAt".toList = ⟨true, "a feline"⟩ ∧ dict.wordList.Nodup) := by
  cases hEq : runInserts [("Cat".toList, "feline"), ("cat".toList, ""),
      ("CAT".toList, "a feline")] with
  | none =>
    have h2 : (runInserts [("Cat".toList, "feline"), ("cat".toList, ""),
        ("CAT".toList, "a feline")]).isSome = true := by decide
    rw [hEq] at h2
    cases h2
  | some dict =>
    exact ⟨dict, rfl, claim1_insert_lookup _ "cAt".toList "a feline" dict hEq (by decide)⟩

/-- C6: every reachable lexicon state satisfies: a word is in the word-set iff
a terminal node is reachable from the root by consuming its characters; the
word-set and word-sequence hold exactly the same words with no drift (they are
equal as lists); and the word-sequence lists each normalized word exactly
once, in first-insertion order. -/
theorem claim6_reachable_invariant (ops : List (List Char × String)) (dict : WordDictionary)
    (hrun : runInserts ops = some dict) :
    (∀ q, (∃ m, walkPath dict.root q = some m ∧ m.isEndOfWord = true) ↔ q ∈ dict.wordsSet) ∧
    dict.wordsSet = dict.wordList ∧
    dict.wordList.Nodup ∧
    dict.wordList = firstInsertionOrder ops := by
  obtain ⟨dict2, hrun2, hinv, hlist, _⟩ := runInserts_spec ops
  rw [hrun] at hrun2
  cases hrun2
  refine ⟨?_, hinv.setEq, hinv.nodup, hlist⟩
  intro q
  rw [hinv.setEq, ← hinv.terminalIff q, lookupNorm_isSome_iff]

theorem claim6_reachable_invariant_witness :
    ∃ dict, runInserts [("b".toList, ""), ("A".toList, "x"), ("b".toList, "y")] = some dict ∧
      ((∀ q, (∃ m, walkPath dict.root q = some m ∧ m.isEndOfWord = true) ↔ q ∈ dict.wordsSet) ∧
       dict.wordsSet = dict.wordList ∧
       dict.wordList.Nodup ∧
       dict.wordList = firstInsertionOrder [("b".toList, ""), ("A".toList, "x"),
         ("b".toList, "y")]) := by
  cases hEq : runInserts [("b".toList, ""), ("A".toList, "x"), ("b".toList, "y")] with
  | none =>
    have h2 : (runInserts [("b".toList, ""), ("A".toList, "x"),
        ("b".toList, "y")]).isSome = true := by decide
    rw [hEq] at h2
    cases h2
  | some dict =>
    exact ⟨dict, rfl, claim6_reachable_invariant _ dict hEq⟩

/-- C7: no operation throws. Every sequence of `insertWord` calls runs to
completion (`runInserts` never hits the modelled `TypeError`), and in
particular the unchecked walk of the update branch never dereferences a
missing node: one further `insertWord` with arbitrary arguments also succeeds
from every reachable state. `searchWord`, `getAutoSuggestions` and
`getSpellingCorrections` are total functions of the model by construction. -/
theorem claim7_no_throw (ops : List (List Char × String)) (w : List Char) (defn : String) :
    ∃ dict dict2, runInserts ops = some dict ∧ insertWord dict w defn = some dict2 := by
  obtain ⟨dict, hrun, hinv, _, _⟩ := runInserts_spec ops
  obtain ⟨dict2, hins, _, _, _⟩ := insertWord_step dict w defn hinv
  exact ⟨dict, dict2, hrun, hins⟩

/-- C10: inserting the empty string marks the root node terminal and records
`""` in the word-set and word-sequence, so every subsequent lookup of `""`
returns `found: true` with the definition tracked by the update semantics,
and `""` is in the candidate pool (`wordList`) scanned by
`getSpellingCorrections`. -/
theorem claim10_empty_string (ops1 ops2 : List (List Char × String)) (defn : String)
    (dict : WordDictionary)
    (hrun : runInserts (ops1 ++ ([], defn) :: ops2) = some dict) :
    dict.root.isEndOfWord = true ∧
    [] ∈ dict.wordsSet ∧ [] ∈ dict.wordList ∧
    ∃ s, specDef (ops1 ++ ([], defn) :: ops2) [] = some s ∧
      searchWord dict [] = ⟨true, s⟩ := by
  obtain ⟨dict2, hrun2, hinv, _, hlook⟩ := runInserts_spec (ops1 ++ ([], defn) :: ops2)
  rw [hrun] at hrun2
  cases hrun2
  have hsome : (specDef (ops1 ++ ([], defn) :: ops2) []).isSome = true := by
    rw [specDef, specDefFold_append]
    simp only [specDefFold, List.foldl_cons]
    rw [if_pos (by rfl)]
    exact specDefFold_isSome _ _ (updDef_isSome _ _)
  obtain ⟨s, hs⟩ := Option.isSome_iff_exists.mp hsome
  have hlookup : lookupNorm dict.root [] = some s := by
    rw [hlook [], hs]
  obtain ⟨m, hm, he, _⟩ := lookupNorm_eq_some_iff.mp hlookup
  simp only [walkPath, Option.some.injEq] at hm
  have hmem : [] ∈ dict.wordList :=
    (hinv.terminalIff []).mp (by rw [hlookup]; rfl)
  refine ⟨by rw [hm]; exact he, by rw [hinv.setEq]; exact hmem, hmem, s, hs, ?_⟩
  exact searchGo_of_lookupNorm hlookup

theorem claim10_empty_string_witness :
    ∃ dict, runInserts ([("a".toList, "x")] ++ ([], "empty word") :: [("b".toList, "y")]) =
        some dict ∧
      (dict.root.isEndOfWord = true ∧
       [] ∈ dict.wordsSet ∧ [] ∈ dict.wordList ∧
       ∃ s, specDef ([("a".toList, "x")] ++ ([], "empty word") :: [("b".toList, "y")]) [] =
          some s ∧ searchWord dict [] = ⟨true, s⟩) := by
  cases hEq : runInserts ([("a".toList, "x")] ++ ([], "empty word") :: [("b".toList, "y")]) with
  | none =>
    have h2 : (runInserts ([("a".toList, "x")] ++ ([], "empty word") ::
        [("b".toList, "y")])).isSome = true := by decide
    rw [hEq] at h2
    cases h2
  | some dict =>
    exact ⟨dict, rfl,
      claim10_empty_string [("a".toList, "x")] [("b".toList, "y")] "empty word" dict hEq⟩

/-! ### Edit distance: C8 -/

theorem dp_self (a : List Char) : ∀ (fuel i : Nat), i + i ≤ fuel → dp a a fuel i i = 0 := by
  intro fuel
  induction fuel with
  | zero =>
    intro i h
    have h0 : i = 0 := by omega
    subst h0
    rfl
  | succ fuel ih =>
    intro i h
    cases i with
    | zero => rfl
    | succ i2 =>
      show dp a a (fuel + 1) (i2 + 1) (i2 + 1) = 0
      rw [dp]
      simp only [if_pos rfl]
      exact ih i2 (by omega)

theorem dp_symm (a b : List Char) : ∀ (fuel i j : Nat), dp a b fuel i j = dp b a fuel j i := by
  intro fuel
  induction fuel with
  | zero =>
    intro i j
    cases i <;> cases j <;> rfl
  | succ fuel ih =>
    intro i j
    cases i with
    | zero => cases j <;> rfl
    | succ i2 =>
      cases j with
      | zero => rfl
      | succ j2 =>
        show dp a b (fuel + 1) (i2 + 1) (j2 + 1) = dp b a (fuel + 1) (j2 + 1) (i2 + 1)
        rw [dp, dp]
        by_cases hc : a[i2]? = b[j2]?
        · rw [if_pos hc, if_pos hc.symm]
          exact ih i2 j2
        · rw [if_neg hc, if_neg (fun h => hc h.symm)]
          rw [ih i2 (j2 + 1), ih (i2 + 1) j2, ih i2 j2]
          omega

/-- C8: `editDistance` vanishes on equal strings, is symmetric, and against
the empty string equals the other string's length. -/
theorem claim8_editDistance_algebra :
    (∀ a : List Char, editDistance a a = 0) ∧
    (∀ a b : List Char, editDistance a b = editDistance b a) ∧
    (∀ b : List Char, editDistance [] b = b.length) := by
  refine ⟨?_, ?_, ?_⟩
  · intro a
    exact dp_self a (a.length + a.length) a.length (le_refl _)
  · intro a b
    unfold editDistance
    rw [dp_symm a b, Nat.add_comm]
  · intro b
    cases b <;> rfl

/-! ### Spelling corrections: sorting and dedup lemmas -/

theorem candLE_total (x y : List Char × Nat) : candLE x y = true ∨ candLE y x = true := by
  unfold candLE
  rcases lt_trichotomy x.2 y.2 with h | h | h
  · left; simp [h]
  · rcases lexLe_total x.1 y.1 with h2 | h2
    · left; simp [h, h2]
    · right; simp [h.symm, h2]
  · right; simp [h]

theorem candLE_trans {x y z : List Char × Nat} (h1 : candLE x y = true)
    (h2 : candLE y z = true) : candLE x z = true := by
  unfold candLE at h1 h2 ⊢
  simp only [Bool.or_eq_true, Bool.and_eq_true, decide_eq_true_eq] at h1 h2 ⊢
  rcases h1 with h1 | ⟨h1e, h1l⟩
  · rcases h2 with h2 | ⟨h2e, _⟩
    · left; omega
    · left; omega
  · rcases h2 with h2 | ⟨h2e, h2l⟩
    · left; omega
    · right; exact ⟨by omega, lexLe_trans h1l h2l⟩

theorem mem_insertSorted {z x : List Char × Nat} {l : List (List Char × Nat)} :
    z ∈ insertSorted x l ↔ z = x ∨ z ∈ l := by
  induction l with
  | nil => simp [insertSorted]
  | cons y ys ih =>
    unfold insertSorted
    by_cases h : candLE x y = true
    · simp [h]
    · simp only [Bool.not_eq_true] at h
      simp only [h, Bool.false_eq_true, if_false, List.mem_cons, ih]
      tauto

theorem pairwise_insertSorted {x : List Char × Nat} {l : List (List Char × Nat)}
    (h : l.Pairwise (fun a b => candLE a b = true)) :
    (insertSorted x l).Pairwise (fun a b => candLE a b = true) := by
  induction l with
  | nil => simp [insertSorted]
  | cons y ys ih =>
    rcases List.pairwise_cons.mp h with ⟨hy, hys⟩
    unfold insertSorted
    by_cases hxy : candLE x y = true
    · rw [if_pos hxy]
      refine List.pairwise_cons.mpr ⟨?_, h⟩
      intro z hz
      rcases List.mem_cons.mp hz with rfl | hz2
      · exact hxy
      · exact candLE_trans hxy (hy z hz2)
    · simp only [Bool.not_eq_true] at hxy
      simp only [hxy, Bool.false_eq_true, if_false]
      refine List.pairwise_cons.mpr ⟨?_, ih hys⟩
      intro z hz
      rcases mem_insertSorted.mp hz with rfl | hz2
      · rcases candLE_total z y with h2 | h2
        · rw [hxy] at h2; cases h2
        · exact h2
      · exact hy z hz2

theorem pairwise_sortCands (l : List (List Char × Nat)) :
    (sortCands l).Pairwise (fun a b => candLE a b = true) := by
  induction l with
  | nil => simp [sortCands]
  | cons x xs ih => exact pairwise_insertSorted ih

theorem mem_sortCands {z : List Char × Nat} {l : List (List Char × Nat)} :
    z ∈ sortCands l ↔ z ∈ l := by
  induction l with
  | nil => simp [sortCands]
  | cons x xs ih =>
    unfold sortCands
    rw [mem_insertSorted, ih, List.mem_cons]

theorem dedupLoop_eq_append (maxS : Nat) :
    ∀ (rem : List (List Char × Nat)) (seen : List (List Char))
      (acc : List (List Char × Nat)),
    ∃ s, s.Sublist rem ∧ dedupLoop maxS seen acc rem = acc ++ s := by
  intro rem
  induction rem with
  | nil => exact fun seen acc => ⟨[], List.Sublist.refl _, by simp [dedupLoop]⟩
  | cons c cs ih =>
    intro seen acc
    unfold dedupLoop
    by_cases h1 : c.1 ∈ seen
    · obtain ⟨s, hsub, heq⟩ := ih seen acc
      exact ⟨s, hsub.cons c, by simp [h1, heq]⟩
    · by_cases h2 : maxS ≤ acc.length + 1
      · exact ⟨[c], by simp, by simp [h1, h2]⟩
      · obtain ⟨s, hsub, heq⟩ := ih (c.1 :: seen) (acc ++ [c])
        refine ⟨c :: s, hsub.cons₂ c, ?_⟩
        simp only [h1, if_neg h2, heq, List.append_assoc, List.singleton_append,
          if_false]

theorem dedupLoop_length (maxS : Nat) :
    ∀ (rem : List (List Char × Nat)) (seen : List (List Char))
      (acc : List (List Char × Nat)),
    acc.length < maxS → (dedupLoop maxS seen acc rem).length ≤ maxS := by
  intro rem
  induction rem with
  | nil =>
    intro seen acc h
    simpa [dedupLoop] using Nat.le_of_lt h
  | cons c cs ih =>
    intro seen acc h
    unfold dedupLoop
    by_cases h1 : c.1 ∈ seen
    · simpa [h1] using ih seen acc h
    · by_cases h2 : maxS ≤ acc.length + 1
      · simp only [h1, if_neg, if_pos h2, Bool.false_eq_true, if_false]
        simpa using h
      · have h3 : (acc ++ [c]).length < maxS := by
          simp only [List.length_append, List.length_singleton]
          omega
        simpa [h1, h2] using ih (c.1 :: seen) (acc ++ [c]) h3

theorem dedupLoop_nodup (maxS : Nat) :
    ∀ (rem : List (List Char × Nat)) (seen : List (List Char))
      (acc : List (List Char × Nat)),
    (acc.map (fun c => c.1)).Nodup → (∀ w ∈ acc.map (fun c => c.1), w ∈ seen) →
    ((dedupLoop maxS seen acc rem).map (fun c => c.1)).Nodup := by
  intro rem
  induction rem with
  | nil =>
    intro seen acc h1 _
    simpa [dedupLoop] using h1
  | cons c cs ih =>
    intro seen acc h1 h2
    unfold dedupLoop
    by_cases hc : c.1 ∈ seen
    · simpa [hc] using ih seen acc h1 h2
    · have hnotacc : c.1 ∉ acc.map (fun c => c.1) := fun hmem => hc (h2 _ hmem)
      have hnodup2 : ((acc ++ [c]).map (fun c => c.1)).Nodup := by
        rw [List.map_append]
        exact nodup_append_singleton h1 hnotacc
      by_cases hlen : maxS ≤ acc.length + 1
      · simpa [hc, hlen] using hnodup2
      · have hcov : ∀ w ∈ (acc ++ [c]).map (fun c => c.1), w ∈ c.1 :: seen := by
          intro w hw
          rw [List.map_append] at hw
          rcases List.mem_append.mp hw with hw2 | hw2
          · exact List.mem_cons_of_mem _ (h2 _ hw2)
          · simp only [List.map_cons, List.map_nil, List.mem_singleton] at hw2
            subst hw2
            exact List.mem_cons_self _ _
        simpa [hc, hlen] using ih (c.1 :: seen) (acc ++ [c]) hnodup2 hcov

theorem editDistance_self (a : List Char) : editDistance a a = 0 :=
  dp_self a (a.length + a.length) a.length (le_refl _)

/-! ### Claims C3 and C5 -/

/-- C3: `getSpellingCorrections` never returns the normalized query itself;
every returned word `x` satisfies `0 < editDistance(word, x) ≤ maxDistance`;
the result is sorted by ascending distance with ties broken alphabetically;
it has no duplicates; and it has at most `maxSuggestions` elements
(word strings only). -/
theorem claim3_corrections_shape (dict : WordDictionary) (word : List Char)
    (maxDistance maxSuggestions : Nat) (hS : 0 < maxSuggestions) :
    toLowerCase word ∉ getSpellingCorrections dict word maxDistance maxSuggestions ∧
    (∀ x ∈ getSpellingCorrections dict word maxDistance maxSuggestions,
      0 < editDistance (toLowerCase word) x ∧
      editDistance (toLowerCase word) x ≤ maxDistance) ∧
    (getSpellingCorrections dict word maxDistance maxSuggestions).Pairwise
      (fun x y => editDistance (toLowerCase word) x < editDistance (toLowerCase word) y ∨
        (editDistance (toLowerCase word) x = editDistance (toLowerCase word) y ∧
         lexLe x y = true)) ∧
    (getSpellingCorrections dict word maxDistance maxSuggestions).Nodup ∧
    (getSpellingCorrections dict word maxDistance maxSuggestions).length ≤ maxSuggestions := by
  have hres : getSpellingCorrections dict word maxDistance maxSuggestions =
      (dedupLoop maxSuggestions [] []
        (sortCands (dict.wordList.filterMap (fun dictWord =>
          if 0 < editDistance (toLowerCase word) dictWord ∧
              editDistance (toLowerCase word) dictWord ≤ maxDistance then
            some (dictWord, editDistance (toLowerCase word) dictWord)
          else none)))).map (fun c => c.1) := rfl
  obtain ⟨s, hsub, heq⟩ := dedupLoop_eq_append maxSuggestions
    (sortCands (dict.wordList.filterMap (fun dictWord =>
        if 0 < editDistance (toLowerCase word) dictWord ∧
            editDistance (toLowerCase word) dictWord ≤ maxDistance then
          some (dictWord, editDistance (toLowerCase word) dictWord)
        else none))) [] []
  rw [List.nil_append] at heq
  have hcand : ∀ p ∈ dict.wordList.filterMap (fun dictWord =>
      if 0 < editDistance (toLowerCase word) dictWord ∧
          editDistance (toLowerCase word) dictWord ≤ maxDistance then
        some (dictWord, editDistance (toLowerCase word) dictWord)
      else none),
      p.2 = editDistance (toLowerCase word) p.1 ∧ 0 < p.2 ∧ p.2 ≤ maxDistance := by
    intro p hp
    rw [List.mem_filterMap] at hp
    obtain ⟨a, _, hpa⟩ := hp
    by_cases hcond : 0 < editDistance (toLowerCase word) a ∧
        editDistance (toLowerCase word) a ≤ maxDistance
    · rw [if_pos hcond] at hpa
      cases hpa
      exact ⟨rfl, hcond.1, hcond.2⟩
    · rw [if_neg hcond] at hpa
      cases hpa
  have humem : ∀ p ∈ dedupLoop maxSuggestions [] []
      (sortCands (dict.wordList.filterMap (fun dictWord =>
        if 0 < editDistance (toLowerCase word) dictWord ∧
            editDistance (toLowerCase word) dictWord ≤ maxDistance then
          some (dictWord, editDistance (toLowerCase word) dictWord)
        else none))),
      p.2 = editDistance (toLowerCase word) p.1 ∧ 0 < p.2 ∧ p.2 ≤ maxDistance := by
    intro p hp
    rw [heq] at hp
    exact hcand p (mem_sortCands.mp (hsub.mem hp))
  refine ⟨?_, ?_, ?_, ?_, ?_⟩
  · rw [hres]
    intro hmem
    obtain ⟨p, hp, hp1⟩ := List.mem_map.mp hmem
    obtain ⟨hdist, hpos, _⟩ := humem p hp
    rw [hdist, hp1, editDistance_self] at hpos
    cases hpos
  · rw [hres]
    intro x hx
    obtain ⟨p, hp, hp1⟩ := List.mem_map.mp hx
    obtain ⟨hdist, hpos, hle⟩ := humem p hp
    rw [← hp1, ← hdist]
    exact ⟨hpos, hle⟩
  · rw [hres]
    rw [List.pairwise_map]
    have hpw : (dedupLoop maxSuggestions [] []
        (sortCands (dict.wordList.filterMap (fun dictWord =>
          if 0 < editDistance (toLowerCase word) dictWord ∧
              editDistance (toLowerCase word) dictWord ≤ maxDistance then
            some (dictWord, editDistance (toLowerCase word) dictWord)
          else none)))).Pairwise (fun a b => candLE a b = true) := by
      rw [heq]
      exact List.Pairwise.sublist hsub (pairwise_sortCands _)
    refine hpw.imp_of_mem ?_
    intro p q hp hq hle
    obtain ⟨hdp, _, _⟩ := humem p hp
    obtain ⟨hdq, _, _⟩ := humem q hq
    unfold candLE at hle
    simp only [Bool.or_eq_true, Bool.and_eq_true, decide_eq_true_eq] at hle
    rcases hle with hle | ⟨hle, hlex⟩
    · left; rw [← hdp, ← hdq]; exact hle
    · right; exact ⟨by rw [← hdp, ← hdq, hle], hlex⟩
  · rw [hres]
    exact dedupLoop_nodup _ _ _ _ (by simp) (by simp)
  · rw [hres, List.length_map]
    exact dedupLoop_length _ _ _ _ (by simpa using hS)

theorem claim3_corrections_shape_witness :
    toLowerCase "ab".toList ∉ getSpellingCorrections
      (WordDictionary.mk TrieNode.new [['a', 'b'], ['a', 'c']] [['a', 'b'], ['a', 'c']])
      "ab".toList 2 5 ∧
    (∀ x ∈ getSpellingCorrections
      (WordDictionary.mk TrieNode.new [['a', 'b'], ['a', 'c']] [['a', 'b'], ['a', 'c']])
      "ab".toList 2 5,
      0 < editDistance (toLowerCase "ab".toList) x ∧
      editDistance (toLowerCase "ab".toList) x ≤ 2) ∧
    (getSpellingCorrections
      (WordDictionary.mk TrieNode.new [['a', 'b'], ['a', 'c']] [['a', 'b'], ['a', 'c']])
      "ab".toList 2 5).Pairwise
      (fun x y => editDistance (toLowerCase "ab".toList) x <
          editDistance (toLowerCase "ab".toList) y ∨
        (editDistance (toLowerCase "ab".toList) x = editDistance (toLowerCase "ab".toList) y ∧
         lexLe x y = true)) ∧
    (getSpellingCorrections
      (WordDictionary.mk TrieNode.new [['a', 'b'], ['a', 'c']] [['a', 'b'], ['a', 'c']])
      "ab".toList 2 5).Nodup ∧
    (getSpellingCorrections
      (WordDictionary.mk TrieNode.new [['a', 'b'], ['a', 'c']] [['a', 'b'], ['a', 'c']])
      "ab".toList 2 5).length ≤ 5 :=
  claim3_corrections_shape _ _ 2 5 (by decide)

/-- C5 counterexample: with the scenario-A vocabulary, `correct("aple", 2, 5)`
does not return `["apple"]` — the distance-2 matches pass the filter and the
suggestion budget of 5 keeps them. -/
theorem claim5_counterexample :
    (runInserts [("apple".toList, "a fruit"), ("apply".toList, "to request"),
        ("app".toList, "a program")]).map
      (fun d => getSpellingCorrections d "aple".toList 2 5) ≠
      some ["apple".toList] := by decide

/-- C5 amended: with the scenario-A vocabulary, `correct("aple", 2, 5)`
returns `["apple", "app", "apply"]`: `"apple"` (distance 1) first, ahead of
the distance-2 matches `"app"` and `"apply"`, which follow in alphabetical
order. -/
theorem claim5_amended :
    (runInserts [("apple".toList, "a fruit"), ("apply".toList, "to request"),
        ("app".toList, "a program")]).map
      (fun d => getSpellingCorrections d "aple".toList 2 5) =
      some ["apple".toList, "app".toList, "apply".toList] := by decide

/-! ### Depth-first suggestion enumeration lemmas -/

theorem dfs_mk (cs : ChildList) (e : Bool) (d : String) (pre : List Char)
    (s : List (List Char)) (cap : Nat) :
    dfs (.mk cs e d) pre s cap =
      if cap ≤ s.length then s
      else dfsChildren cs pre (if e then s ++ [pre] else s) cap := by
  rw [dfs]

theorem dfsChildren_nil (pre : List Char) (s : List (List Char)) (cap : Nat) :
    dfsChildren .nil pre s cap = s := by
  rw [dfsChildren]

theorem dfsChildren_cons (c : Char) (t : TrieNode) (cs : ChildList) (pre : List Char)
    (s : List (List Char)) (cap : Nat) :
    dfsChildren (.cons c t cs) pre s cap =
      dfsChildren cs pre (dfs t (pre ++ [c]) s cap) cap := by
  rw [dfsChildren]

theorem allWords_mk (cs : ChildList) (e : Bool) (d : String) (pre : List Char) :
    allWords (.mk cs e d) pre = (if e then [pre] else []) ++ allWordsChildren cs pre := by
  rw [allWords]

theorem allWordsChildren_nil (pre : List Char) : allWordsChildren .nil pre = [] := by
  rw [allWordsChildren]

theorem allWordsChildren_cons (c : Char) (t : TrieNode) (cs : ChildList) (pre : List Char) :
    allWordsChildren (.cons c t cs) pre =
      allWords t (pre ++ [c]) ++ allWordsChildren cs pre := by
  rw [allWordsChildren]

/-- The capped depth-first walk produces exactly the prefix of the full
enumeration that fits in the remaining budget, appended to the accumulator. -/
theorem dfs_eq_take :
    (∀ node : TrieNode, ∀ (pre : List Char) (s : List (List Char)) (cap : Nat),
      dfs node pre s cap = s ++ (allWords node pre).take (cap - s.length)) ∧
    (∀ cs : ChildList, ∀ (pre : List Char) (s : List (List Char)) (cap : Nat),
      dfsChildren cs pre s cap = s ++ (allWordsChildren cs pre).take (cap - s.length)) := by
  apply TrieNode.ind2
  · intro cs e d hQ pre s cap
    rw [dfs_mk, allWords_mk]
    by_cases hcap : cap ≤ s.length
    · rw [if_pos hcap]
      have h0 : cap - s.length = 0 := by omega
      rw [h0, List.take_zero, List.append_nil]
    · rw [if_neg hcap]
      by_cases he : e = true
      · rw [if_pos he, if_pos he]
        rw [hQ pre (s ++ [pre]) cap]
        simp only [List.length_append, List.length_singleton,
          List.singleton_append, List.append_assoc]
        congr 1
        have h1 : cap - s.length = (cap - (s.length + 1)) + 1 := by omega
        rw [h1, List.take_succ_cons]
      · rw [if_neg he, if_neg he]
        rw [hQ pre s cap]
        simp
  · intro pre s cap
    rw [dfsChildren_nil, allWordsChildren_nil]
    simp
  · intro c t cs ihP ihQ pre s cap
    rw [dfsChildren_cons, allWordsChildren_cons]
    rw [ihP (pre ++ [c]) s cap, ihQ pre _ cap]
    rw [List.take_append_eq_append_take, ← List.append_assoc]
    congr 2
    simp only [List.length_append, List.length_take]
    omega

theorem terminalAt_mk_nil (cs : ChildList) (e : Bool) (d : String) :
    terminalAt (.mk cs e d) [] ↔ e = true := by
  unfold terminalAt
  simp [walkPath]

theorem terminalAt_mk_cons (cs : ChildList) (e : Bool) (d : String) (c : Char)
    (rest : List Char) :
    terminalAt (.mk cs e d) (c :: rest) ↔
      ∃ child, cs.get c = some child ∧ terminalAt child rest := by
  unfold terminalAt
  constructor
  · rintro ⟨m, hm, he⟩
    rw [walkPath] at hm
    simp only [TrieNode.children_mk] at hm
    cases hg : cs.get c with
    | none => rw [hg] at hm; cases hm
    | some child =>
      rw [hg] at hm
      exact ⟨child, rfl, m, hm, he⟩
  · rintro ⟨child, hg, m, hm, he⟩
    refine ⟨m, ?_, he⟩
    rw [walkPath]
    simp only [TrieNode.children_mk, hg]
    exact hm

/-- Membership in the full enumeration: exactly the words `pre ++ t` with a
terminal node at `t` below the subtree root. -/
theorem mem_allWords :
    (∀ node : TrieNode, NodeWF node → ∀ (pre w : List Char),
      (w ∈ allWords node pre ↔ ∃ t, w = pre ++ t ∧ terminalAt node t)) ∧
    (∀ cs : ChildList, ChildrenWF cs → cs.keys.Nodup → ∀ (pre w : List Char),
      (w ∈ allWordsChildren cs pre ↔
        ∃ c rest, w = pre ++ c :: rest ∧
          ∃ child, cs.get c = some child ∧ terminalAt child rest)) := by
  apply TrieNode.ind2
  · intro cs e d hQ hwf pre w
    rw [allWords_mk, List.mem_append]
    rw [hQ hwf.childrenWF hwf.keysNodup pre w]
    constructor
    · rintro (hw | ⟨c, rest, rfl, child, hg, hterm⟩)
      · have hw2 : e = true ∧ w = pre := by
          cases e <;> simpa using hw
        exact ⟨[], by simp [hw2.2], (terminalAt_mk_nil cs e d).mpr hw2.1⟩
      · exact ⟨c :: rest, rfl, (terminalAt_mk_cons cs e d c rest).mpr ⟨child, hg, hterm⟩⟩
    · rintro ⟨t, rfl, hterm⟩
      cases t with
      | nil =>
        left
        have he : e = true := (terminalAt_mk_nil cs e d).mp hterm
        simp [he]
      | cons c rest =>
        right
        obtain ⟨child, hg, hterm2⟩ := (terminalAt_mk_cons cs e d c rest).mp hterm
        exact ⟨c, rest, rfl, child, hg, hterm2⟩
  · intro _ _ pre w
    rw [allWordsChildren_nil]
    simp [ChildList.get]
  · intro c t cs ihP ihQ hwf hkeys pre w
    have hwf_t : NodeWF t := by cases hwf; assumption
    have hwf_cs : ChildrenWF cs := by cases hwf; assumption
    have hkeys_cs : cs.keys.Nodup := by
      simp only [ChildList.keys, List.nodup_cons] at hkeys
      exact hkeys.2
    have hc_notin : c ∉ cs.keys := by
      simp only [ChildList.keys, List.nodup_cons] at hkeys
      exact hkeys.1
    rw [allWordsChildren_cons, List.mem_append]
    rw [ihP hwf_t (pre ++ [c]) w, ihQ hwf_cs hkeys_cs pre w]
    constructor
    · rintro (⟨t2, rfl, hterm⟩ | ⟨c2, rest, rfl, child, hg, hterm⟩)
      · refine ⟨c, t2, by simp, t, ?_, hterm⟩
        simp [ChildList.get]
      · have hne : ¬c = c2 := by
          intro h
          exact hc_notin (h ▸ ChildList.mem_keys_of_get_some hg)
        refine ⟨c2, rest, rfl, child, ?_, hterm⟩
        simpa [ChildList.get, hne] using hg
    · rintro ⟨c2, rest, rfl, child, hg, hterm⟩
      by_cases hc : c = c2
      · subst hc
        simp [ChildList.get] at hg
        subst hg
        left
        exact ⟨rest, by simp, hterm⟩
      · right
        simp only [ChildList.get, if_neg hc] at hg
        exact ⟨c2, rest, rfl, child, hg, hterm⟩

/-- Under well-formedness the full enumeration has no duplicates. -/
theorem allWords_nodup :
    (∀ node : TrieNode, NodeWF node → ∀ pre : List Char, (allWords node pre).Nodup) ∧
    (∀ cs : ChildList, ChildrenWF cs → cs.keys.Nodup → ∀ pre : List Char,
      (allWordsChildren cs pre).Nodup) := by
  apply TrieNode.ind2
  · intro cs e d hQ hwf pre
    rw [allWords_mk]
    have hAWC := hQ hwf.childrenWF hwf.keysNodup pre
    cases e with
    | false => simpa using hAWC
    | true =>
      simp only [if_true, List.singleton_append, List.nodup_cons]
      refine ⟨?_, hAWC⟩
      intro hmem
      obtain ⟨c, rest, habs, _⟩ :=
        (mem_allWords.2 cs hwf.childrenWF hwf.keysNodup pre pre).mp hmem
      have hlen := congrArg List.length habs
      simp at hlen
  · intro _ _ pre
    rw [allWordsChildren_nil]
    exact List.nodup_nil
  · intro c t cs ihP ihQ hwf hkeys pre
    have hwf_t : NodeWF t := by cases hwf; assumption
    have hwf_cs : ChildrenWF cs := by cases hwf; assumption
    have hkeys_cs : cs.keys.Nodup := by
      simp only [ChildList.keys, List.nodup_cons] at hkeys
      exact hkeys.2
    have hc_notin : c ∉ cs.keys := by
      simp only [ChildList.keys, List.nodup_cons] at hkeys
      exact hkeys.1
    rw [allWordsChildren_cons, List.nodup_append]
    refine ⟨ihP hwf_t _, ihQ hwf_cs hkeys_cs _, ?_⟩
    intro w hw1 hw2
    obtain ⟨t2, rfl, _⟩ := (mem_allWords.1 t hwf_t (pre ++ [c]) _).mp hw1
    obtain ⟨c2, rest, habs, child, hg, _⟩ :=
      (mem_allWords.2 cs hwf_cs hkeys_cs pre _).mp hw2
    rw [List.append_assoc, List.singleton_append] at habs
    have h2 := List.append_cancel_left habs
    have hc2 : c = c2 := (List.cons.injEq _ _ _ _ ▸ h2).1
    exact hc_notin (hc2 ▸ ChildList.mem_keys_of_get_some hg)

theorem dedupeAux_eq_self : ∀ (l : List (List Char)) (seen : List (List Char)),
    l.Nodup → (∀ x ∈ l, x ∉ seen) → dedupeAux seen l = l := by
  intro l
  induction l with
  | nil => intro seen _ _; rfl
  | cons x xs ih =>
    intro seen hnd hns
    have hx : x ∉ seen := hns x (List.mem_cons_self x xs)
    rw [List.nodup_cons] at hnd
    unfold dedupeAux
    rw [if_neg hx]
    congr 1
    refine ih (x :: seen) hnd.2 ?_
    intro y hy
    simp only [List.mem_cons, not_or]
    exact ⟨fun h => hnd.1 (h ▸ hy), hns y (List.mem_cons_of_mem x hy)⟩

theorem dedupeFirst_eq_self {l : List (List Char)} (h : l.Nodup) : dedupeFirst l = l :=
  dedupeAux_eq_self l [] h (by simp)

/-! ### The autosuggestion characterization and claims C2, C9, C4 -/

theorem getAutoSuggestions_walk_none (dict : WordDictionary) (pre : List Char) (maxS : Nat)
    (hwalk : walkPath dict.root (toLowerCase pre) = none) :
    getAutoSuggestions dict pre maxS = [] := by
  simp [getAutoSuggestions, hwalk]

/-- Under the reachable-state invariant, `getAutoSuggestions` is exactly the
first `maxSuggestions` entries of the full depth-first enumeration below the
prefix node: the internal `maxSuggestions * 3` cap and the dedup pass change
nothing, because the enumeration is duplicate-free. -/
theorem getAutoSuggestions_walk_some (dict : WordDictionary) (hinv : StateInv dict)
    (pre : List Char) (maxS : Nat) (node : TrieNode)
    (hwalk : walkPath dict.root (toLowerCase pre) = some node) :
    getAutoSuggestions dict pre maxS = (allWords node (toLowerCase pre)).take maxS := by
  have hwf : NodeWF node := nodeWF_walkPath hinv.wf hwalk
  have hnd : (allWords node (toLowerCase pre)).Nodup := allWords_nodup.1 node hwf _
  simp only [getAutoSuggestions, hwalk]
  rw [dfs_eq_take.1 node (toLowerCase pre) [] (maxS * 3)]
  simp only [List.nil_append, List.length_nil, Nat.sub_zero]
  rw [dedupeFirst_eq_self ((List.take_sublist _ _).nodup hnd)]
  rw [List.take_take]
  congr 1
  omega

theorem terminalAt_iff_mem_wordList (dict : WordDictionary) (hinv : StateInv dict)
    (q : List Char) : terminalAt dict.root q ↔ q ∈ dict.wordList := by
  rw [← hinv.terminalIff q, lookupNorm_isSome_iff]
  rfl

theorem allWords_subtree (dict : WordDictionary) (hinv : StateInv dict) (lpre : List Char)
    (node : TrieNode) (hwalk : walkPath dict.root lpre = some node) :
    (∀ w, w ∈ allWords node lpre ↔ (w ∈ dict.wordList ∧ startsWith lpre w = true)) ∧
    (allWords node lpre).length =
      (dict.wordList.filter (fun q => startsWith lpre q)).length := by
  have hwf : NodeWF node := nodeWF_walkPath hinv.wf hwalk
  have hmem : ∀ w, w ∈ allWords node lpre ↔
      (w ∈ dict.wordList ∧ startsWith lpre w = true) := by
    intro w
    rw [mem_allWords.1 node hwf lpre w]
    constructor
    · rintro ⟨t, rfl, hterm⟩
      have hroot : terminalAt dict.root (lpre ++ t) := by
        obtain ⟨m, hm, he⟩ := hterm
        refine ⟨m, ?_, he⟩
        rw [walkPath_append, hwalk, Option.some_bind]
        exact hm
      refine ⟨(terminalAt_iff_mem_wordList dict hinv _).mp hroot, ?_⟩
      rw [startsWith_iff]
      exact ⟨t, rfl⟩
    · rintro ⟨hmemL, hsw⟩
      obtain ⟨t, rfl⟩ := (startsWith_iff _ _).mp hsw
      refine ⟨t, rfl, ?_⟩
      obtain ⟨m, hm, he⟩ := (terminalAt_iff_mem_wordList dict hinv _).mpr hmemL
      rw [walkPath_append, hwalk, Option.some_bind] at hm
      exact ⟨m, hm, he⟩
  refine ⟨hmem, ?_⟩
  have hnd1 : (allWords node lpre).Nodup := allWords_nodup.1 node hwf _
  have hnd2 : (dict.wordList.filter (fun q => startsWith lpre q)).Nodup :=
    hinv.nodup.filter _
  have hperm : (allWords node lpre).Perm
      (dict.wordList.filter (fun q => startsWith lpre q)) := by
    rw [List.perm_ext_iff_of_nodup hnd1 hnd2]
    intro w
    rw [hmem w, List.mem_filter]
  exact hperm.length_eq

theorem filter_startsWith_nil_of_walk_none (dict : WordDictionary) (hinv : StateInv dict)
    (lpre : List Char) (hwalk : walkPath dict.root lpre = none) :
    dict.wordList.filter (fun q => startsWith lpre q) = [] := by
  rw [List.filter_eq_nil_iff]
  intro q hq hsw
  obtain ⟨t, rfl⟩ := (startsWith_iff _ _).mp hsw
  obtain ⟨m, hm, _⟩ := (terminalAt_iff_mem_wordList dict hinv _).mpr hq
  rw [walkPath_append, hwalk, Option.none_bind] at hm
  cases hm

/-- C2: on every reachable lexicon, `suggestPrefix` returns at most
`maxSuggestions` distinct words, each of which is found by `lookup` and
starts with the normalized prefix; a prefix matching zero stored words (in
particular, one that is not a path in the trie) yields `[]`, not an error
(the function is total by construction). -/
theorem claim2_suggestions_contract (ops : List (List Char × String))
    (dict : WordDictionary) (hrun : runInserts ops = some dict)
    (pre : List Char) (maxS : Nat) (hS : 0 < maxS) :
    (getAutoSuggestions dict pre maxS).length ≤ maxS ∧
    (getAutoSuggestions dict pre maxS).Nodup ∧
    (∀ w ∈ getAutoSuggestions dict pre maxS,
      (searchWord dict w).found = true ∧ startsWith (toLowerCase pre) w = true) ∧
    ((∀ q ∈ dict.wordList, startsWith (toLowerCase pre) q = false) →
      getAutoSuggestions dict pre maxS = []) := by
  obtain ⟨dict2, hrun2, hinv, _, _⟩ := runInserts_spec ops
  rw [hrun] at hrun2
  cases hrun2
  cases hwalk : walkPath dict.root (toLowerCase pre) with
  | none =>
    rw [getAutoSuggestions_walk_none dict pre maxS hwalk]
    exact ⟨by simp, by simp, by simp, fun _ => rfl⟩
  | some node =>
    rw [getAutoSuggestions_walk_some dict hinv pre maxS node hwalk]
    have hwf : NodeWF node := nodeWF_walkPath hinv.wf hwalk
    obtain ⟨hmem, _⟩ := allWords_subtree dict hinv (toLowerCase pre) node hwalk
    have hnd : (allWords node (toLowerCase pre)).Nodup := allWords_nodup.1 node hwf _
    refine ⟨by simpa using List.length_take_le maxS _, (List.take_sublist _ _).nodup hnd,
      ?_, ?_⟩
    · intro w hw
      have hw2 := (hmem w).mp ((List.take_sublist _ _).mem hw)
      refine ⟨?_, hw2.2⟩
      obtain ⟨s, hs⟩ := Option.isSome_iff_exists.mp ((hinv.terminalIff w).mpr hw2.1)
      have hnorm : toLowerCase w = w := hinv.normalized w hw2.1
      show (searchGo dict.root (toLowerCase w)).found = true
      rw [hnorm, searchGo_of_lookupNorm hs]
    · intro hnone
      have hempty : allWords node (toLowerCase pre) = [] := by
        rcases hcase : allWords node (toLowerCase pre) with _ | ⟨w, rest⟩
        · rfl
        · have hw := (hmem w).mp (by rw [hcase]; exact List.mem_cons_self w rest)
          rw [hnone w hw.1] at hw
          cases hw.2
      rw [hempty, List.take_nil]

/-- C9: `getAutoSuggestions` returns exactly `min maxSuggestions N` words,
where `N` is the number of distinct stored words extending the normalized
prefix: the internal `maxSuggestions * 3` accumulation cap and the
post-traversal dedup never lose results. -/
theorem claim9_exact_count (ops : List (List Char × String)) (dict : WordDictionary)
    (hrun : runInserts ops = some dict) (pre : List Char) (maxS : Nat) :
    (getAutoSuggestions dict pre maxS).length =
      min maxS ((dict.wordList.filter (fun q => startsWith (toLowerCase pre) q)).length) := by
  obtain ⟨dict2, hrun2, hinv, _, _⟩ := runInserts_spec ops
  rw [hrun] at hrun2
  cases hrun2
  cases hwalk : walkPath dict.root (toLowerCase pre) with
  | none =>
    rw [getAutoSuggestions_walk_none dict pre maxS hwalk]
    rw [filter_startsWith_nil_of_walk_none dict hinv _ hwalk]
    simp
  | some node =>
    rw [getAutoSuggestions_walk_some dict hinv pre maxS node hwalk]
    obtain ⟨_, hlen⟩ := allWords_subtree dict hinv (toLowerCase pre) node hwalk
    rw [List.length_take, hlen]

/-- C4 counterexample: the traversal follows Map insertion order, not a fixed
character order. Building the lexicon from the same two normalized words in
the two possible orders yields differently ordered suggestion sequences. -/
theorem claim4_counterexample :
    (runInserts [("b".toList, ""), ("a".toList, "")]).map (fun d => d.wordList) =
      some [['b'], ['a']] ∧
    (runInserts [("a".toList, ""), ("b".toList, "")]).map (fun d => d.wordList) =
      some [['a'], ['b']] ∧
    (runInserts [("b".toList, ""), ("a".toList, "")]).map
      (fun d => getAutoSuggestions d [] 10) = some [['b'], ['a']] ∧
    (runInserts [("a".toList, ""), ("b".toList, "")]).map
      (fun d => getAutoSuggestions d [] 10) = some [['a'], ['b']] := by decide

/-- C4 amended: the traversal visits child edges in Map insertion order, so
two lexicons built by inserting the same set of normalized words in different
orders agree on suggestions only up to order (and only when `maxSuggestions`
covers all matching words): the returned sequences are permutations of each
other, but need not be equal. -/
theorem claim4_amended (ops1 ops2 : List (List Char × String)) (d1 d2 : WordDictionary)
    (h1 : runInserts ops1 = some d1) (h2 : runInserts ops2 = some d2)
    (hperm : d1.wordList.Perm d2.wordList) (pre : List Char) (maxS : Nat)
    (hN : (d1.wordList.filter (fun q => startsWith (toLowerCase pre) q)).length ≤ maxS) :
    (getAutoSuggestions d1 pre maxS).Perm (getAutoSuggestions d2 pre maxS) := by
  obtain ⟨d1b, hrun1, hinv1, _, _⟩ := runInserts_spec ops1
  rw [h1] at hrun1
  cases hrun1
  obtain ⟨d2b, hrun2, hinv2, _, _⟩ := runInserts_spec ops2
  rw [h2] at hrun2
  cases hrun2
  have hN2 : (d2.wordList.filter (fun q => startsWith (toLowerCase pre) q)).length ≤ maxS := by
    rw [← (hperm.filter _).length_eq]
    exact hN
  have hres : ∀ (d : WordDictionary), StateInv d →
      (d.wordList.filter (fun q => startsWith (toLowerCase pre) q)).length ≤ maxS →
      ∃ res, getAutoSuggestions d pre maxS = res ∧ res.Nodup ∧
        (∀ w, w ∈ res ↔ (w ∈ d.wordList ∧ startsWith (toLowerCase pre) w = true)) := by
    intro d hinv hNd
    cases hwalk : walkPath d.root (toLowerCase pre) with
    | none =>
      refine ⟨[], getAutoSuggestions_walk_none d pre maxS hwalk, List.nodup_nil, ?_⟩
      intro w
      have hfilter := filter_startsWith_nil_of_walk_none d hinv _ hwalk
      rw [List.filter_eq_nil_iff] at hfilter
      simp only [List.not_mem_nil, false_iff, not_and]
      intro hmem hsw
      exact hfilter w hmem hsw
    | some node =>
      obtain ⟨hmem, hlen⟩ := allWords_subtree d hinv (toLowerCase pre) node hwalk
      have hnd : (allWords node (toLowerCase pre)).Nodup :=
        allWords_nodup.1 node (nodeWF_walkPath hinv.wf hwalk) _
      have htake : (allWords node (toLowerCase pre)).take maxS =
          allWords node (toLowerCase pre) := by
        apply List.take_of_length_le
        rw [hlen]
        exact hNd
      refine ⟨allWords node (toLowerCase pre), ?_, hnd, hmem⟩
      rw [getAutoSuggestions_walk_some d hinv pre maxS node hwalk, htake]
  obtain ⟨res1, heq1, hnd1, hmem1⟩ := hres d1 hinv1 hN
  obtain ⟨res2, heq2, hnd2, hmem2⟩ := hres d2 hinv2 hN2
  rw [heq1, heq2]
  rw [List.perm_ext_iff_of_nodup hnd1 hnd2]
  intro w
  rw [hmem1 w, hmem2 w, hperm.mem_iff]

theorem claim4_amended_witness :
    ∃ d1 d2, runInserts [("b".toList, ""), ("a".toList, "")] = some d1 ∧
      runInserts [("a".toList, ""), ("b".toList, "")] = some d2 ∧
      (getAutoSuggestions d1 [] 10).Perm (getAutoSuggestions d2 [] 10) := by
  cases hEq1 : runInserts [("b".toList, ""), ("a".toList, "")] with
  | none =>
    have h2 : (runInserts [("b".toList, ""), ("a".toList, "")]).isSome = true := by decide
    rw [hEq1] at h2
    cases h2
  | some d1 =>
    cases hEq2 : runInserts [("a".toList, ""), ("b".toList, "")] with
    | none =>
      have h2 : (runInserts [("a".toList, ""), ("b".toList, "")]).isSome = true := by decide
      rw [hEq2] at h2
      cases h2
    | some d2 =>
      have hl1 : d1.wordList = [['b'], ['a']] := by
        have h3 : (some d1).map (fun d => d.wordList) = some [['b'], ['a']] := by
          rw [← hEq1]; decide
        simpa using h3
      have hl2 : d2.wordList = [['a'], ['b']] := by
        have h3 : (some d2).map (fun d => d.wordList) = some [['a'], ['b']] := by
          rw [← hEq2]; decide
        simpa using h3
      refine ⟨d1, d2, rfl, rfl, ?_⟩
      refine claim4_amended _ _ d1 d2 hEq1 hEq2 ?_ [] 10 ?_
      · rw [hl1, hl2]; decide
      · rw [hl1]; decide

theorem claim2_suggestions_contract_witness :
    ∃ dict, runInserts [("apple".toList, "a fruit"), ("apply".toList, "to request"),
        ("app".toList, "a program")] = some dict ∧
      ((getAutoSuggestions dict "AP".toList 2).length ≤ 2 ∧
       (getAutoSuggestions dict "AP".toList 2).Nodup ∧
       (∀ w ∈ getAutoSuggestions dict "AP".toList 2,
         (searchWord dict w).found = true ∧ startsWith (toLowerCase "AP".toList) w = true) ∧
       ((∀ q ∈ dict.wordList, startsWith (toLowerCase "AP".toList) q = false) →
         getAutoSuggestions dict "AP".toList 2 = [])) := by
  cases hEq : runInserts [("apple".toList, "a fruit"), ("apply".toList, "to request"),
      ("app".toList, "a program")] with
  | none =>
    have h2 : (runInserts [("apple".toList, "a fruit"), ("apply".toList, "to request"),
        ("app".toList, "a program")]).isSome = true := by decide
    rw [hEq] at h2
    cases h2
  | some dict =>
    exact ⟨dict, rfl, claim2_suggestions_contract _ dict hEq "AP".toList 2 (by decide)⟩

theorem claim9_exact_count_witness :
    ∃ dict, runInserts [("apple".toList, "a fruit"), ("apply".toList, "to request"),
        ("app".toList, "a program")] = some dict ∧
      (getAutoSuggestions dict "app".toList 2).length =
        min 2 ((dict.wordList.filter
          (fun q => startsWith (toLowerCase "app".toList) q)).length) := by
  cases hEq : runInserts [("apple".toList, "a fruit"), ("apply".toList, "to request"),
      ("app".toList, "a program")] with
  | none =>
    have h2 : (runInserts [("apple".toList, "a fruit"), ("apply".toList, "to request"),
        ("app".toList, "a program")]).isSome = true := by decide
    rw [hEq] at h2
    cases h2
  | some dict =>
    exact ⟨dict, rfl, claim9_exact_count _ dict hEq "app".toList 2⟩
